import Mathlib

/-!
Verification of the transaction-mempool specification of this repository
(`elements/lisk-transaction-pool`). The pool implementation itself ships
outside this tree, so the data model and the operations below are built from
the specification document (sections 3, 4 and 7) and anchored on the unit
tests in `test/unit/transaction_pool.spec.ts`.

Conventions of the embedding:
* unsigned big integers (ids, nonces, fees, byte lengths, addresses) are `Nat`;
* the external `apply` callback is a pure per-transaction verdict function,
  as licensed by the design note on verdict shapes (section 9);
* maps (`all_transactions`, `lists`) are association lists, the fee-priority
  queue is a list kept sorted ascending by priority with new entries placed
  before equal priorities (section 3: on equal priority the older entry is
  evicted later).
-/

namespace TxPool

/-- Modelled from the spec: a transaction as consumed by the pool (section 3).
`senderAddress` is the cached result of the external `address_of` on the
sender public key; `bytesLength` is the cached length of `bytes_of(tx)`;
`receivedAt` is the admission timestamp (unused by the claims below). -/
structure Tx where
  id : Nat
  senderAddress : Nat
  nonce : Nat
  fee : Nat
  minFee : Nat
  bytesLength : Nat
  receivedAt : Nat
deriving DecidableEq, Repr

/-- Modelled from the spec: the derived ordering key
`fee_priority := (fee - min_fee) / bytes_length`, integer division on
unsigned big integers, truncation toward zero (sections 3 and 9). -/
def feePriority (tx : Tx) : Nat :=
  (tx.fee - tx.minFee) / tx.bytesLength

/-- Modelled from the spec: per-transaction verdict of the external `apply`
callback, a sum of OK, FAIL with a nonce-gap signal (`dataPath == ".nonce"`),
and FAIL with any other reason (sections 4.3 and 9). -/
inductive ApplyVerdict where
  | OK : ApplyVerdict
  | FailNonceGap : ApplyVerdict
  | FailOther : ApplyVerdict
deriving DecidableEq, Repr

/-- Modelled from the spec: the error kinds returned by `add` (section 7). -/
inductive ErrKind where
  | insufficientEntranceFee : ErrKind
  | poolFull : ErrKind
  | poolFullForAccount : ErrKind
  | insufficientReplacementFee : ErrKind
  | processableNonceLocked : ErrKind
  | invalidTransaction : ErrKind
deriving DecidableEq, Repr

/-- Modelled from the spec: the status component of the value returned by
`add` (section 4.3). -/
inductive AddStatus where
  | OK : AddStatus
  | FAIL : AddStatus
deriving DecidableEq, Repr

/-- Modelled from the spec: the result value of `add`: a status plus the
error kind on failure; admission errors are returned, never thrown
(sections 4.3 and 7). -/
structure AddResult where
  status : AddStatus
  error : Option ErrKind
deriving DecidableEq, Repr

/-- Modelled from the spec: reasons carried by `transaction:removed` events
(section 6). -/
inductive EvReason where
  | evPoolFull : EvReason
  | evExpired : EvReason
  | evExplicit : EvReason
  | evReplaced : EvReason
deriving DecidableEq, Repr

/-- Modelled from the spec: the events emitted on the observer channel
(section 6). -/
inductive PoolEvent where
  | added : Nat → PoolEvent
  | removed : Nat → EvReason → PoolEvent
deriving DecidableEq, Repr

/-- Modelled from the spec: the per-sender `TransactionList` state:
`byNonce` keyed by nonce (kept sorted ascending by nonce) and the ordered
sequence `processableNonces` (section 3). -/
structure TxList where
  byNonce : List Tx
  processableNonces : List Nat
deriving DecidableEq, Repr

/-- Modelled from the spec: the global pool state: the id map, the
per-sender lists, the fee-priority queue, and the configuration
(sections 3 and 6). -/
structure Pool where
  allTransactions : List Tx
  lists : List (Nat × TxList)
  feePriorityQueue : List (Nat × Nat)
  maxTransactions : Nat
  maxTransactionsPerAccount : Nat
  minEntranceFeePriority : Nat
  minReplacementFeeDifference : Nat
deriving DecidableEq, Repr

/-- Modelled from the spec: the ordered sequence of a sender's processable
transactions, ascending by nonce (section 4.2). -/
def getProcessable (L : TxList) : List Tx :=
  L.byNonce.filter (fun t => L.processableNonces.contains t.nonce)

/-- Modelled from the spec: the ordered sequence of a sender's unprocessable
transactions, ascending by nonce (section 4.2). -/
def getUnprocessable (L : TxList) : List Tx :=
  L.byNonce.filter (fun t => !(L.processableNonces.contains t.nonce))

/-- Modelled from the spec: the walk collecting arithmetically consecutive
nonces used by `get_promotable` (section 4.2): starting at the expected
nonce `n`, take transactions while each nonce equals the previous plus one. -/
def promotableFrom : Nat → List Tx → List Tx
  | _, [] => []
  | n, t :: ts => if t.nonce = n then t :: promotableFrom (n + 1) ts else []

/-- Modelled from the spec: `get_promotable` returns the contiguous
unprocessable block whose nonces immediately follow the largest processable
nonce, or start at the smallest unprocessable nonce when nothing is
processable (section 4.2). -/
def getPromotable (L : TxList) : List Tx :=
  match getUnprocessable L with
  | [] => []
  | u :: us =>
    match (getProcessable L).getLast? with
    | none => u :: promotableFrom (u.nonce + 1) us
    | some m => promotableFrom (m.nonce + 1) (u :: us)

/-- Modelled from the spec: the first nonce eligible for promotion for a
sender: the successor of the largest processable nonce, or the smallest
nonce present when nothing is processable (section 4.2). -/
def promoStart (L : TxList) : Nat :=
  match (getProcessable L).getLast? with
  | some m => m.nonce + 1
  | none =>
    match L.byNonce.head? with
    | some u => u.nonce
    | none => 0

/-- Modelled from the spec: insertion into a nonce-sorted sender list
(section 3: nonces are unique per sender; collisions are handled by the
replacement rules before insertion). -/
def insertByNonce (tx : Tx) : List Tx → List Tx
  | [] => [tx]
  | t :: ts => if t.nonce < tx.nonce then t :: insertByNonce tx ts else tx :: t :: ts

/-- Modelled from the spec: the outcome of `TransactionList.add`
(section 4.2): either added, with the id displaced by replacement or
per-account overflow, or rejected with a reason. -/
inductive ListAddOutcome where
  | added : Option Nat → ListAddOutcome
  | rejected : ErrKind → ListAddOutcome
deriving DecidableEq, Repr

/-- Modelled from the spec: the admission rules of a sender list
(section 4.2, rules 1 to 4): same-nonce replacement guarded by the
processable lock and the replacement-fee floor, per-account capacity with
rejection of a new maximal nonce and eviction of the highest unprocessable
nonce otherwise, and plain insertion with immediate promotion exactly when
the caller passed `processable` and the list was empty (the fresh-sender
case of section 4.3, step 4, exercised by the repository test at
transaction_pool.spec.ts:242). -/
def listAdd (L : TxList) (tx : Tx) (maxPerAccount : Nat) (minReplacement : Nat)
    (processable : Bool) : TxList × ListAddOutcome :=
  match L.byNonce.find? (fun t => t.nonce = tx.nonce) with
  | some incumbent =>
    if L.processableNonces.contains tx.nonce then
      (L, ListAddOutcome.rejected ErrKind.processableNonceLocked)
    else if tx.fee < incumbent.fee + minReplacement then
      (L, ListAddOutcome.rejected ErrKind.insufficientReplacementFee)
    else
      (⟨insertByNonce tx (L.byNonce.filter (fun t => t.nonce ≠ tx.nonce)),
        L.processableNonces⟩,
       ListAddOutcome.added (some incumbent.id))
  | none =>
    if maxPerAccount ≤ L.byNonce.length then
      if L.byNonce.all (fun t => t.nonce < tx.nonce) then
        (L, ListAddOutcome.rejected ErrKind.poolFullForAccount)
      else
        match (getUnprocessable L).getLast? with
        | none => (L, ListAddOutcome.rejected ErrKind.poolFullForAccount)
        | some victim =>
          (⟨insertByNonce tx (L.byNonce.filter (fun t => t.nonce ≠ victim.nonce)),
            L.processableNonces.filter (fun n => n ≠ victim.nonce)⟩,
           ListAddOutcome.added (some victim.id))
    else
      (⟨insertByNonce tx L.byNonce,
        if processable && L.byNonce.isEmpty then L.processableNonces ++ [tx.nonce]
        else L.processableNonces⟩,
       ListAddOutcome.added none)

/-- Modelled from the spec: membership of an id in the global id map
(section 4.7, `contains`). -/
def containsTx (p : Pool) (i : Nat) : Bool :=
  p.allTransactions.any (fun t => t.id = i)

/-- Modelled from the spec: lookup of an id in the global id map
(section 4.7, `get`). -/
def getTx (p : Pool) (i : Nat) : Option Tx :=
  p.allTransactions.find? (fun t => t.id = i)

/-- Modelled from the spec: lookup of a sender's list (section 3). -/
def lookupList (p : Pool) (a : Nat) : Option TxList :=
  (p.lists.find? (fun e => e.1 = a)).map (fun e => e.2)

/-- Modelled from the spec: removal of one nonce from a sender list:
deleted from `by_nonce` and from `processable_nonces` if present
(section 4.7). -/
def listRemoveNonce (L : TxList) (n : Nat) : TxList :=
  ⟨L.byNonce.filter (fun t => t.nonce ≠ n),
   L.processableNonces.filter (fun m => m ≠ n)⟩

/-- Modelled from the spec: writing back a sender list, deleting the entry
when the list became empty (section 4.7 and invariant I5). -/
def updateLists (ls : List (Nat × TxList)) (a : Nat) (L : TxList) :
    List (Nat × TxList) :=
  if L.byNonce.isEmpty then ls.filter (fun e => e.1 ≠ a)
  else ls.map (fun e => if e.1 = a then (a, L) else e)

/-- Modelled from the spec: writing a sender list on admission, creating the
entry when absent (section 4.3, step 5). -/
def setList (ls : List (Nat × TxList)) (a : Nat) (L : TxList) :
    List (Nat × TxList) :=
  if ls.any (fun e => e.1 = a) then ls.map (fun e => if e.1 = a then (a, L) else e)
  else ls ++ [(a, L)]

/-- Modelled from the spec: removal by id from every index: the id map, the
owning sender list (found through the resident transaction's cached sender
address), and the fee-priority queue; an absent id changes nothing
(section 4.7). -/
def removeInternal (p : Pool) (i : Nat) : Pool :=
  match getTx p i with
  | none => p
  | some found =>
    { p with
      allTransactions := p.allTransactions.filter (fun t => t.id ≠ i),
      lists :=
        match lookupList p found.senderAddress with
        | none => p.lists
        | some L => updateLists p.lists found.senderAddress (listRemoveNonce L found.nonce),
      feePriorityQueue := p.feePriorityQueue.filter (fun e => e.2 ≠ i) }

/-- Modelled from the spec: the public `remove(tx)`: removes by id from all
indexes and reports whether the id was present (section 4.7). -/
def poolRemove (p : Pool) (tx : Tx) : Pool × Bool × List PoolEvent :=
  if containsTx p tx.id then
    (removeInternal p tx.id, true, [PoolEvent.removed tx.id EvReason.evExplicit])
  else (p, false, [])

/-- Modelled from the spec: whether the resident transaction with this id is
marked unprocessable by its host sender list (section 4.4a). -/
def txUnprocessable (p : Pool) (i : Nat) : Bool :=
  match getTx p i with
  | none => false
  | some t =>
    match lookupList p t.senderAddress with
    | none => false
    | some L => !(L.processableNonces.contains t.nonce)

/-- Modelled from the spec: `_evict_unprocessable` scans the fee-priority
queue ascending, removes the first id whose host list marks it
unprocessable, emits `transaction:removed(pool_full)`, and reports whether
an eviction occurred (section 4.4a). -/
def evictUnprocessable (p : Pool) : Pool × Bool × List PoolEvent :=
  match p.feePriorityQueue.find? (fun e => txUnprocessable p e.2) with
  | none => (p, false, [])
  | some e =>
    (removeInternal p e.2, true, [PoolEvent.removed e.2 EvReason.evPoolFull])

/-- Modelled from the spec: the per-sender processable frontiers: for each
sender, the transaction of highest nonce in its processable partition
(section 4.4b). -/
def frontiers (p : Pool) : List Tx :=
  p.lists.filterMap (fun e => (getProcessable e.2).getLast?)

/-- Modelled from the spec: selection of a minimum `fee_priority` element,
keeping the earliest on ties (section 9 leaves the tie order free; the
model fixes list order). -/
def minByFee : List Tx → Option Tx
  | [] => none
  | t :: ts =>
    match minByFee ts with
    | none => some t
    | some u => if feePriority u < feePriority t then some u else some t

/-- Modelled from the spec: `_evict_processable` removes, among the
per-sender processable frontiers, one of minimum `fee_priority`, emits
`transaction:removed(pool_full)`, and reports whether an eviction occurred
(section 4.4b). -/
def evictProcessable (p : Pool) : Pool × Bool × List PoolEvent :=
  match minByFee (frontiers p) with
  | none => (p, false, [])
  | some t =>
    (removeInternal p t.id, true, [PoolEvent.removed t.id EvReason.evPoolFull])

/-- Modelled from the spec: insertion into the fee-priority queue, sorted
ascending by priority; a new entry is placed before entries of equal
priority so that, on equal priority, the older entry is evicted later
(section 3). -/
def pqInsert (pr : Nat) (i : Nat) : List (Nat × Nat) → List (Nat × Nat)
  | [] => [(pr, i)]
  | e :: rest => if e.1 < pr then e :: pqInsert pr i rest else (pr, i) :: e :: rest

/-- Modelled from the spec: the queue-minimum comparison of the capacity
arbitration (section 4.3, step 3): proceed only when the incoming priority
strictly exceeds the minimum priority in the queue. -/
def capProceed (p : Pool) (prio : Nat) : Bool :=
  match p.feePriorityQueue.head? with
  | none => true
  | some e => decide (e.1 < prio)

/-- Modelled from the spec: the capacity arbitration of `add` (section 4.3,
step 3): at capacity, reject unless the incoming priority beats the queue
minimum; otherwise try `_evict_unprocessable` first and only then
`_evict_processable`; `none` means rejection with `pool_full`. -/
def capacityArbitration (p : Pool) (prio : Nat) : Option (Pool × List PoolEvent) :=
  if p.allTransactions.length = p.maxTransactions then
    if capProceed p prio then
      if (evictUnprocessable p).2.1 then
        some ((evictUnprocessable p).1, (evictUnprocessable p).2.2)
      else if (evictProcessable p).2.1 then
        some ((evictProcessable p).1, (evictProcessable p).2.2)
      else none
    else none
  else some (p, [])

/-- Modelled from the spec: steps 5 to 7 of `add` (section 4.3): delegate to
the sender's list (creating one if absent), apply a displaced id to the id
map and the queue with a `replaced` removal event, register the incoming
transaction in all indexes, and emit `transaction:added`. -/
def admitToSender (p1 : Pool) (evs1 : List PoolEvent) (tx : Tx) (procFlag : Bool) :
    Pool × AddResult × List PoolEvent :=
  match listAdd ((lookupList p1 tx.senderAddress).getD ⟨[], []⟩) tx
      p1.maxTransactionsPerAccount p1.minReplacementFeeDifference procFlag with
  | (_, ListAddOutcome.rejected r) => (p1, ⟨AddStatus.FAIL, some r⟩, evs1)
  | (L1, ListAddOutcome.added rid) =>
    let p2 :=
      match rid with
      | none => p1
      | some r =>
        { p1 with
          allTransactions := p1.allTransactions.filter (fun t => t.id ≠ r),
          feePriorityQueue := p1.feePriorityQueue.filter (fun e => e.2 ≠ r) }
    let p3 :=
      { p2 with
        allTransactions := p2.allTransactions ++ [tx],
        lists := setList p2.lists tx.senderAddress L1,
        feePriorityQueue := pqInsert (feePriority tx) tx.id p2.feePriorityQueue }
    let evR :=
      match rid with
      | none => ([] : List PoolEvent)
      | some r => [PoolEvent.removed r EvReason.evReplaced]
    (p3, ⟨AddStatus.OK, none⟩, evs1 ++ evR ++ [PoolEvent.added tx.id])

/-- Modelled from the spec: the public `add` (section 4.3): duplicate guard
returning idempotent OK, entrance fee floor, capacity arbitration, the
apply probe deciding placement or `invalid_transaction`, then sender-list
admission and registration; every failure is a returned result value
(section 7). -/
def add (p : Pool) (tx : Tx) (f : Tx → ApplyVerdict) :
    Pool × AddResult × List PoolEvent :=
  if containsTx p tx.id then (p, ⟨AddStatus.OK, none⟩, [])
  else if feePriority tx < p.minEntranceFeePriority then
    (p, ⟨AddStatus.FAIL, some ErrKind.insufficientEntranceFee⟩, [])
  else
    match capacityArbitration p (feePriority tx) with
    | none => (p, ⟨AddStatus.FAIL, some ErrKind.poolFull⟩, [])
    | some (p1, evs1) =>
      match f tx with
      | ApplyVerdict.FailOther =>
        (p1, ⟨AddStatus.FAIL, some ErrKind.invalidTransaction⟩, evs1)
      | ApplyVerdict.OK => admitToSender p1 evs1 tx true
      | ApplyVerdict.FailNonceGap => admitToSender p1 evs1 tx false

/-- Modelled from the spec: one reorganize pass over a sender list
(section 4.5): the longest all-OK verdict prefix of the processable
sequence followed by the promotable block becomes the new processable set,
any suffix becomes unprocessable. -/
def reorganizeList (f : Tx → ApplyVerdict) (L : TxList) : TxList :=
  ⟨L.byNonce,
   (((getProcessable L ++ getPromotable L).takeWhile
       (fun t => f t == ApplyVerdict.OK)).map Tx.nonce)⟩

/-- Modelled from the spec: the periodic reorganize task runs the per-list
pass over every sender list (section 4.5). -/
def reorganize (f : Tx → ApplyVerdict) (p : Pool) : Pool :=
  { p with lists := p.lists.map (fun e => (e.1, reorganizeList f e.2)) }

/-- Modelled from the spec: `get_processable_transactions` builds, from the
current pool state, the mapping from sender address to that sender's
processable sequence, including only senders whose processable list is
non-empty (section 4.7). -/
def getProcessableTransactions (p : Pool) : List (Nat × List Tx) :=
  p.lists.filterMap (fun e =>
    match getProcessable e.2 with
    | [] => none
    | ps => some (e.1, ps))

/-- Modelled from the spec: ascending-nonce well-formedness of a sender
list's `by_nonce` order (section 3). -/
def ascNonce : List Tx → Bool
  | [] => true
  | [_] => true
  | a :: b :: rest => decide (a.nonce < b.nonce) && ascNonce (b :: rest)

/-- Modelled from the spec: invariant I4 (section 3): `by_nonce` is sorted
strictly ascending by nonce and `processable_nonces` is a contiguous prefix
of its sorted nonce order, starting at the smallest nonce present. -/
def wfList (L : TxList) : Prop :=
  ascNonce L.byNonce = true ∧
  L.processableNonces = (L.byNonce.map Tx.nonce).take L.processableNonces.length

end TxPool

namespace TxPool

/-! ### Branch characterizations of `add` -/

theorem add_of_dup {p : Pool} {tx : Tx} {f : Tx → ApplyVerdict}
    (h : containsTx p tx.id = true) :
    add p tx f = (p, ⟨AddStatus.OK, none⟩, []) := by
  simp [add, h]

theorem add_of_floor {p : Pool} {tx : Tx} {f : Tx → ApplyVerdict}
    (h1 : containsTx p tx.id = false)
    (h2 : feePriority tx < p.minEntranceFeePriority) :
    add p tx f = (p, ⟨AddStatus.FAIL, some ErrKind.insufficientEntranceFee⟩, []) := by
  simp [add, h1, h2]

theorem add_of_capNone {p : Pool} {tx : Tx} {f : Tx → ApplyVerdict}
    (h1 : containsTx p tx.id = false)
    (h2 : ¬ feePriority tx < p.minEntranceFeePriority)
    (h3 : capacityArbitration p (feePriority tx) = none) :
    add p tx f = (p, ⟨AddStatus.FAIL, some ErrKind.poolFull⟩, []) := by
  simp [add, h1, h2, h3]

theorem add_of_capSome_failOther {p p1 : Pool} {evs1 : List PoolEvent} {tx : Tx}
    {f : Tx → ApplyVerdict}
    (h1 : containsTx p tx.id = false)
    (h2 : ¬ feePriority tx < p.minEntranceFeePriority)
    (h3 : capacityArbitration p (feePriority tx) = some (p1, evs1))
    (h4 : f tx = ApplyVerdict.FailOther) :
    add p tx f = (p1, ⟨AddStatus.FAIL, some ErrKind.invalidTransaction⟩, evs1) := by
  simp [add, h1, h2, h3, h4]

theorem add_of_capSome_ok {p p1 : Pool} {evs1 : List PoolEvent} {tx : Tx}
    {f : Tx → ApplyVerdict}
    (h1 : containsTx p tx.id = false)
    (h2 : ¬ feePriority tx < p.minEntranceFeePriority)
    (h3 : capacityArbitration p (feePriority tx) = some (p1, evs1))
    (h4 : f tx = ApplyVerdict.OK) :
    add p tx f = admitToSender p1 evs1 tx true := by
  simp [add, h1, h2, h3, h4]

theorem add_of_capSome_gap {p p1 : Pool} {evs1 : List PoolEvent} {tx : Tx}
    {f : Tx → ApplyVerdict}
    (h1 : containsTx p tx.id = false)
    (h2 : ¬ feePriority tx < p.minEntranceFeePriority)
    (h3 : capacityArbitration p (feePriority tx) = some (p1, evs1))
    (h4 : f tx = ApplyVerdict.FailNonceGap) :
    add p tx f = admitToSender p1 evs1 tx false := by
  simp [add, h1, h2, h3, h4]

theorem admit_shape (p1 : Pool) (evs1 : List PoolEvent) (tx : Tx) (fl : Bool) :
    (admitToSender p1 evs1 tx fl).2.1 = ⟨AddStatus.OK, none⟩ ∨
    ∃ k, (admitToSender p1 evs1 tx fl).2.1 = ⟨AddStatus.FAIL, some k⟩ := by
  unfold admitToSender
  rcases h : listAdd ((lookupList p1 tx.senderAddress).getD ⟨[], []⟩) tx
      p1.maxTransactionsPerAccount p1.minReplacementFeeDifference fl with ⟨L1, out⟩
  cases out with
  | added rid => left; simp
  | rejected r => right; exact ⟨r, by simp⟩

theorem add_shape (p : Pool) (tx : Tx) (f : Tx → ApplyVerdict) :
    (add p tx f).2.1 = ⟨AddStatus.OK, none⟩ ∨
    ∃ k, (add p tx f).2.1 = ⟨AddStatus.FAIL, some k⟩ := by
  cases hc : containsTx p tx.id with
  | true => left; rw [add_of_dup hc]
  | false =>
    by_cases hf : feePriority tx < p.minEntranceFeePriority
    · right; exact ⟨ErrKind.insufficientEntranceFee, by rw [add_of_floor hc hf]⟩
    · cases hcap : capacityArbitration p (feePriority tx) with
      | none => right; exact ⟨ErrKind.poolFull, by rw [add_of_capNone hc hf hcap]⟩
      | some pe =>
        rcases pe with ⟨p1, evs1⟩
        cases hv : f tx with
        | FailOther =>
          right
          exact ⟨ErrKind.invalidTransaction, by rw [add_of_capSome_failOther hc hf hcap hv]⟩
        | OK => rw [add_of_capSome_ok hc hf hcap hv]; exact admit_shape p1 evs1 tx true
        | FailNonceGap => rw [add_of_capSome_gap hc hf hcap hv]; exact admit_shape p1 evs1 tx false

/-! ### Concrete sample data reused by witnesses and counterexamples -/

/-- Modelled from the spec: a transaction of fee priority `(1000-10)/10 = 99`. -/
def txA : Tx := ⟨1, 100, 1, 1000, 10, 10, 0⟩

/-- Modelled from the spec: the all-OK verdict function. -/
def fOK : Tx → ApplyVerdict := fun _ => ApplyVerdict.OK

/-- Modelled from the spec: the always-invalid verdict function. -/
def fBad : Tx → ApplyVerdict := fun _ => ApplyVerdict.FailOther

/-- Modelled from the spec: an empty pool with the default configuration of
section 6. -/
def p0 : Pool := ⟨[], [], [], 4096, 64, 0, 10⟩

/-! ### C1 — admission failures are returned, never thrown -/

/-- Claim C1: `add` is a total function into result values: every outcome is
either `{status OK}` or `{status FAIL}` carrying one of the admission error
kinds; in particular an apply probe failing with a non-recoverable reason
yields the returned value `{FAIL, invalid_transaction}` (with the state and
events of the capacity phase), not an exception. -/
theorem C1_add_never_throws :
    ∀ (p : Pool) (tx : Tx) (f : Tx → ApplyVerdict),
      ((add p tx f).2.1.status = AddStatus.FAIL →
        ∃ k, (add p tx f).2.1.error = some k) ∧
      (∀ (p1 : Pool) (evs1 : List PoolEvent),
        containsTx p tx.id = false →
        ¬ feePriority tx < p.minEntranceFeePriority →
        capacityArbitration p (feePriority tx) = some (p1, evs1) →
        f tx = ApplyVerdict.FailOther →
        add p tx f = (p1, ⟨AddStatus.FAIL, some ErrKind.invalidTransaction⟩, evs1)) := by
  intro p tx f
  constructor
  · intro hfail
    rcases add_shape p tx f with h | ⟨k, h⟩
    · rw [h] at hfail; exact absurd hfail (by simp)
    · exact ⟨k, by rw [h]⟩
  · intro p1 evs1 h1 h2 h3 h4
    exact add_of_capSome_failOther h1 h2 h3 h4

/-- Witness for C1 at a concrete input: an empty pool, the sample
transaction and the always-invalid verdict function; the probe failure is
returned as `{FAIL, invalid_transaction}`. -/
theorem C1_add_never_throws_witness :
    add p0 txA fBad = (p0, ⟨AddStatus.FAIL, some ErrKind.invalidTransaction⟩, []) :=
  (C1_add_never_throws p0 txA fBad).2 p0 [] (by decide) (by decide) (by decide) rfl

/-! ### C3 — duplicate admission is an idempotent no-op -/

/-- Claim C3: admission is idempotent on duplicates: whenever the incoming
id is already in `all_transactions`, `add` returns status OK and the whole
pool state is returned unchanged, with no events. -/
theorem C3_add_duplicate_idempotent :
    ∀ (p : Pool) (tx : Tx) (f : Tx → ApplyVerdict),
      containsTx p tx.id = true →
      add p tx f = (p, ⟨AddStatus.OK, none⟩, []) := by
  intro p tx f h
  exact add_of_dup h

/-- Witness for C3 at a concrete input: after `add` of the sample
transaction to an empty pool, a second `add` of the same transaction
returns OK, leaves the pool state identical, and the transaction count
stays one. -/
theorem C3_add_duplicate_idempotent_witness :
    add (add p0 txA fOK).1 txA fOK = ((add p0 txA fOK).1, ⟨AddStatus.OK, none⟩, []) ∧
    (add (add p0 txA fOK).1 txA fOK).1.allTransactions.length = 1 :=
  ⟨C3_add_duplicate_idempotent (add p0 txA fOK).1 txA fOK (by decide), by decide⟩

/-! ### C9 — entrance fee floor -/

/-- Claim C9: for a transaction that is not already resident, a
`fee_priority` (computed as `(fee - min_fee) / bytes_length` with truncating
unsigned division) strictly below `min_entrance_fee_priority` is rejected as
`{FAIL, insufficient_entrance_fee}` with the pool unchanged. -/
theorem C9_entrance_fee_floor :
    ∀ (p : Pool) (tx : Tx) (f : Tx → ApplyVerdict),
      containsTx p tx.id = false →
      feePriority tx < p.minEntranceFeePriority →
      add p tx f = (p, ⟨AddStatus.FAIL, some ErrKind.insufficientEntranceFee⟩, []) := by
  intro p tx f h1 h2
  exact add_of_floor h1 h2

/-- Modelled from the spec: an empty pool configured with
`min_entrance_fee_priority = 10` (section 8, scenario 1). -/
def pFloor : Pool := ⟨[], [], [], 4096, 64, 10, 10⟩

/-- Modelled from the spec: the scenario-1 transaction with `fee = 100`,
`min_fee = 10`, `bytes_length = 10` (section 8). -/
def tx9 : Tx := ⟨1, 100, 1, 100, 10, 10, 0⟩

/-- Witness for C9 at the concrete scenario of the claim:
`min_entrance_fee_priority = 10`, `fee = 100`, `min_fee = 10`, `bytes = 10`,
so `fee_priority = 9` and admission fails with `insufficient_entrance_fee`. -/
theorem C9_entrance_fee_floor_witness :
    feePriority tx9 = 9 ∧
    add pFloor tx9 fOK =
      (pFloor, ⟨AddStatus.FAIL, some ErrKind.insufficientEntranceFee⟩, []) :=
  ⟨by decide, C9_entrance_fee_floor pFloor tx9 fOK (by decide) (by decide)⟩

end TxPool

namespace TxPool

/-! ### List-level helper lemmas -/

theorem mem_insertByNonce_self (tx : Tx) (l : List Tx) : tx ∈ insertByNonce tx l := by
  induction l with
  | nil => simp [insertByNonce]
  | cons t ts ih =>
    unfold insertByNonce
    split
    · exact List.mem_cons_of_mem t ih
    · exact List.mem_cons_self tx (t :: ts)

theorem find?_update_key (ls : List (Nat × TxList)) (a : Nat) (L : TxList)
    (h : ls.any (fun e => e.1 = a) = true) :
    (ls.map (fun e => if e.1 = a then (a, L) else e)).find? (fun e => e.1 = a) =
      some (a, L) := by
  induction ls with
  | nil => simp at h
  | cons e rest ih =>
    by_cases he : e.1 = a
    · simp [he]
    · have h' : rest.any (fun e => e.1 = a) = true := by
        rcases List.any_eq_true.mp h with ⟨x, hx, hxa⟩
        rcases List.mem_cons.mp hx with rfl | hxr
        · exact absurd (by simpa using hxa) he
        · exact List.any_eq_true.mpr ⟨x, hxr, hxa⟩
      simpa [he] using ih h'

theorem find?_setList (ls : List (Nat × TxList)) (a : Nat) (L : TxList) :
    (setList ls a L).find? (fun e => e.1 = a) = some (a, L) := by
  unfold setList
  split
  · next h => exact find?_update_key ls a L h
  · next h =>
    induction ls with
    | nil => simp
    | cons e rest ih =>
      have he : ¬ e.1 = a := by
        intro hea
        exact h (List.any_eq_true.mpr ⟨e, List.mem_cons_self e rest, by simpa using hea⟩)
      have h' : ¬ rest.any (fun e => e.1 = a) = true := by
        intro hr
        rcases List.any_eq_true.mp hr with ⟨x, hx, hxa⟩
        exact h (List.any_eq_true.mpr ⟨x, List.mem_cons_of_mem e hx, hxa⟩)
      simpa [he] using ih h'

theorem listAdd_added_cases {L : TxList} {tx : Tx} {a b : Nat} {fl : Bool}
    {L1 : TxList} {rid : Option Nat}
    (h : listAdd L tx a b fl = (L1, ListAddOutcome.added rid)) :
    tx ∈ L1.byNonce ∧
    ((L.byNonce.find? (fun t => t.nonce = tx.nonce) ≠ none ∧
        L.processableNonces.contains tx.nonce = false ∧
        L1.processableNonces = L.processableNonces) ∨
     (L.byNonce.find? (fun t => t.nonce = tx.nonce) = none ∧
        ∃ v, L1.processableNonces = L.processableNonces.filter (fun n => n ≠ v)) ∨
     (L.byNonce.find? (fun t => t.nonce = tx.nonce) = none ∧
        fl = true ∧ L.byNonce = [] ∧
        L1.processableNonces = L.processableNonces ++ [tx.nonce]) ∨
     (L.byNonce.find? (fun t => t.nonce = tx.nonce) = none ∧
        (fl && L.byNonce.isEmpty) = false ∧
        L1.processableNonces = L.processableNonces)) := by
  unfold listAdd at h
  split at h
  next inc hfind =>
    rcases Bool.eq_false_or_eq_true (L.processableNonces.contains tx.nonce) with hlock | hlock
    · rw [hlock] at h
      simp at h
    · rw [hlock] at h
      rw [if_neg (by simp)] at h
      by_cases hfee : tx.fee < inc.fee + b
      · rw [if_pos hfee] at h; simp at h
      · rw [if_neg hfee] at h
        obtain ⟨hL1, _⟩ := Prod.mk.injEq .. ▸ h
        refine ⟨?_, Or.inl ⟨by simp [hfind], hlock, by rw [← hL1]⟩⟩
        rw [← hL1]
        exact mem_insertByNonce_self tx _
  next hfind =>
    by_cases hcap : a ≤ L.byNonce.length
    · rw [if_pos hcap] at h
      by_cases hall : L.byNonce.all (fun t => t.nonce < tx.nonce) = true
      · simp [hall] at h
      · rw [if_neg (by simpa using hall)] at h
        cases hlast : (getUnprocessable L).getLast? with
        | none => rw [hlast] at h; simp at h
        | some victim =>
          rw [hlast] at h
          obtain ⟨hL1, _⟩ := Prod.mk.injEq .. ▸ h
          refine ⟨?_, Or.inr (Or.inl ⟨hfind, victim.nonce, by rw [← hL1]⟩)⟩
          rw [← hL1]
          exact mem_insertByNonce_self tx _
    · rw [if_neg hcap] at h
      obtain ⟨hL1, _⟩ := Prod.mk.injEq .. ▸ h
      refine ⟨by rw [← hL1]; exact mem_insertByNonce_self tx _, ?_⟩
      rcases Bool.eq_false_or_eq_true (fl && L.byNonce.isEmpty) with hflag | hflag
      · have hfl : fl = true := (Bool.and_eq_true .. ▸ hflag).1
        have hemp : L.byNonce = [] :=
          List.isEmpty_iff.mp (Bool.and_eq_true .. ▸ hflag).2
        refine Or.inr (Or.inr (Or.inl ⟨hfind, hfl, hemp, ?_⟩))
        rw [← hL1]; simp [hflag]
      · refine Or.inr (Or.inr (Or.inr ⟨hfind, hflag, ?_⟩))
        rw [← hL1]; simp [hflag]

end TxPool

namespace TxPool

theorem nonce_not_in_pn_of_wf {L : TxList} (hwf : wfList L) {tx : Tx}
    (hfind : L.byNonce.find? (fun t => t.nonce = tx.nonce) = none) :
    L.processableNonces.contains tx.nonce = false := by
  cases hcon : L.processableNonces.contains tx.nonce with
  | false => rfl
  | true =>
    exfalso
    have hmem : tx.nonce ∈ L.processableNonces := by simpa using hcon
    rw [hwf.2] at hmem
    have hmap : tx.nonce ∈ L.byNonce.map Tx.nonce := List.take_subset _ _ hmem
    rcases List.mem_map.mp hmap with ⟨u, hu, hun⟩
    have := List.find?_eq_none.mp hfind u hu
    simp [hun] at this

theorem listAdd_on_empty {L : TxList} {tx : Tx} {a b : Nat} {L1 : TxList}
    {rid : Option Nat}
    (h : listAdd L tx a b true = (L1, ListAddOutcome.added rid))
    (hemp : L.byNonce = []) :
    L1 = ⟨[tx], L.processableNonces ++ [tx.nonce]⟩ := by
  unfold listAdd at h
  rw [hemp] at h
  simp only [List.find?_nil] at h
  by_cases hcap : a ≤ ([] : List Tx).length
  · rw [if_pos hcap] at h
    simp at h
  · rw [if_neg hcap] at h
    simp at h
    exact h.1.symm

theorem admit_added_result {p1 : Pool} {v : List PoolEvent} {tx : Tx} {fl : Bool}
    {L1 : TxList} {rid : Option Nat}
    (hla : listAdd ((lookupList p1 tx.senderAddress).getD ⟨[], []⟩) tx
      p1.maxTransactionsPerAccount p1.minReplacementFeeDifference fl =
      (L1, ListAddOutcome.added rid)) :
    lookupList (admitToSender p1 v tx fl).1 tx.senderAddress = some L1 ∧
    (admitToSender p1 v tx fl).2.1 = ⟨AddStatus.OK, none⟩ := by
  unfold admitToSender
  rw [hla]
  cases rid with
  | none => simp [lookupList, find?_setList]
  | some r => simp [lookupList, find?_setList]

theorem admit_rejected_result {p1 : Pool} {v : List PoolEvent} {tx : Tx} {fl : Bool}
    {L1 : TxList} {r : ErrKind}
    (hla : listAdd ((lookupList p1 tx.senderAddress).getD ⟨[], []⟩) tx
      p1.maxTransactionsPerAccount p1.minReplacementFeeDifference fl =
      (L1, ListAddOutcome.rejected r)) :
    admitToSender p1 v tx fl = (p1, ⟨AddStatus.FAIL, some r⟩, v) := by
  unfold admitToSender
  rw [hla]

/-! ### C2 — initial placement of an OK-verdict transaction -/

/-- Counterexample to C2 as stated: on an empty pool, the sample transaction
with apply verdict OK is admitted with status OK and, immediately after
`add` returns, it IS the sender list's processable sequence (the
fresh-sender immediate promotion exercised by the repository test at
transaction_pool.spec.ts:242, which expects `getProcessable()` to contain
the transaction right after `add`). -/
theorem C2_counterexample :
    (add p0 txA fOK).2.1.status = AddStatus.OK ∧
    (lookupList (add p0 txA fOK).1 txA.senderAddress).map getProcessable =
      some [txA] := by
  constructor
  · decide
  · decide

/-- Claim C2 as amended: a non-duplicate transaction with apply verdict OK
that `add` admits is inserted into the sender's list; it is NOT in the
processable sequence immediately after `add` returns, unless the sender's
list was empty (or absent) at sender-admission time — the fresh-sender
case — in which case it is promoted immediately. -/
theorem C2_insert_unprocessable_amended :
    ∀ (p p1 : Pool) (evs1 : List PoolEvent) (tx : Tx) (f : Tx → ApplyVerdict),
      containsTx p tx.id = false →
      capacityArbitration p (feePriority tx) = some (p1, evs1) →
      f tx = ApplyVerdict.OK →
      (add p tx f).2.1.status = AddStatus.OK →
      (∀ L0, lookupList p1 tx.senderAddress = some L0 → wfList L0) →
      ∃ L, lookupList (add p tx f).1 tx.senderAddress = some L ∧ tx ∈ L.byNonce ∧
        (∀ L0, lookupList p1 tx.senderAddress = some L0 → L0.byNonce ≠ [] →
          tx ∉ getProcessable L) ∧
        ((lookupList p1 tx.senderAddress = none ∨
          (∃ L0, lookupList p1 tx.senderAddress = some L0 ∧ L0.byNonce = [])) →
          tx ∈ getProcessable L) := by
  intro p p1 evs1 tx f hdup hcap hvOK hstat hwf
  have hfloor : ¬ feePriority tx < p.minEntranceFeePriority := by
    intro hf
    rw [add_of_floor hdup hf] at hstat
    exact absurd hstat (by simp)
  have hadd : add p tx f = admitToSender p1 evs1 tx true :=
    add_of_capSome_ok hdup hfloor hcap hvOK
  rw [hadd] at hstat ⊢
  rcases hla : listAdd ((lookupList p1 tx.senderAddress).getD ⟨[], []⟩) tx
      p1.maxTransactionsPerAccount p1.minReplacementFeeDifference true with ⟨L1, out⟩
  cases out with
  | rejected r =>
    rw [admit_rejected_result hla] at hstat
    exact absurd hstat (by simp)
  | added rid =>
    obtain ⟨hlook, _⟩ := admit_added_result (v := evs1) hla
    obtain ⟨hmem, hcases⟩ := listAdd_added_cases hla
    refine ⟨L1, hlook, hmem, ?_, ?_⟩
    · intro L0 hL0 hne
      rw [hL0] at hla
      simp only [Option.getD_some] at hla
      intro hinproc
      have hfilter := List.mem_filter.mp hinproc
      have hcontains : L1.processableNonces.contains tx.nonce = true := by
        simpa using hfilter.2
      rw [hL0] at hcases
      simp only [Option.getD_some] at hcases
      have hwf0 : wfList L0 := hwf L0 hL0
      rcases hcases with ⟨_, hnc, hpn⟩ | ⟨hfind, v, hpn⟩ | ⟨_, _, hemp, _⟩ | ⟨hfind, _, hpn⟩
      · rw [hpn] at hcontains
        rw [hnc] at hcontains
        exact absurd hcontains (by simp)
      · rw [hpn] at hcontains
        have hmem' : tx.nonce ∈ L0.processableNonces.filter (fun n => n ≠ v) := by
          simpa using hcontains
        have hmem0 : tx.nonce ∈ L0.processableNonces :=
          List.filter_subset' _ hmem'
        have hnc : L0.processableNonces.contains tx.nonce = false :=
          nonce_not_in_pn_of_wf hwf0 hfind
        have hc : L0.processableNonces.contains tx.nonce = true := by
          simpa using hmem0
        rw [hc] at hnc
        exact absurd hnc (by simp)
      · exact hne hemp
      · rw [hpn] at hcontains
        have : L0.processableNonces.contains tx.nonce = false :=
          nonce_not_in_pn_of_wf hwf0 hfind
        rw [hcontains] at this
        exact absurd this (by simp)
    · intro hsrc
      have hempA : ((lookupList p1 tx.senderAddress).getD ⟨[], []⟩).byNonce = [] := by
        rcases hsrc with hnone | ⟨L0, hL0, hemp⟩
        · rw [hnone]; rfl
        · rw [hL0]; simpa using hemp
      have hL1 := listAdd_on_empty hla hempA
      rw [hL1]
      refine List.mem_filter.mpr ⟨by simp, ?_⟩
      simp

end TxPool

namespace TxPool

/-- Modelled from the spec: a second transaction of the same sender as
`txA`, with the next nonce. -/
def txW : Tx := ⟨2, 100, 2, 1000, 10, 10, 0⟩

/-- Modelled from the spec: a pool already holding `txA` unprocessable for
sender 100. -/
def pW : Pool := ⟨[txA], [(100, ⟨[txA], []⟩)], [(99, 1)], 4096, 64, 0, 10⟩

/-- Witness for the amended C2 at a concrete input: adding a second, higher
nonce transaction of a sender that already has a pending transaction; the
newcomer lands in `by_nonce` but not in the processable sequence. -/
theorem C2_insert_unprocessable_amended_witness :
    ∃ L, lookupList (add pW txW fOK).1 txW.senderAddress = some L ∧ txW ∈ L.byNonce ∧
      (∀ L0, lookupList pW txW.senderAddress = some L0 → L0.byNonce ≠ [] →
        txW ∉ getProcessable L) ∧
      ((lookupList pW txW.senderAddress = none ∨
        (∃ L0, lookupList pW txW.senderAddress = some L0 ∧ L0.byNonce = [])) →
        txW ∈ getProcessable L) :=
  C2_insert_unprocessable_amended pW pW [] txW fOK (by decide) (by decide) rfl (by decide)
    (fun L0 h => by
      have h2 : lookupList pW txW.senderAddress = some ⟨[txA], []⟩ := by decide
      rw [h2] at h
      injection h with h3
      exact h3 ▸ (⟨rfl, rfl⟩ : wfList ⟨[txA], []⟩))

end TxPool

namespace TxPool

/-! ### Shape lemmas for eviction and capacity arbitration -/

theorem evictUnprocessable_cases (p : Pool) :
    evictUnprocessable p = (p, false, []) ∨
    ∃ i, evictUnprocessable p =
        (removeInternal p i, true, [PoolEvent.removed i EvReason.evPoolFull]) ∧
      txUnprocessable p i = true := by
  unfold evictUnprocessable
  cases hf : p.feePriorityQueue.find? (fun e => txUnprocessable p e.2) with
  | none => exact Or.inl rfl
  | some e => exact Or.inr ⟨e.2, rfl, by simpa using List.find?_some hf⟩

theorem evictProcessable_cases (p : Pool) :
    evictProcessable p = (p, false, []) ∨
    ∃ t, minByFee (frontiers p) = some t ∧
      evictProcessable p =
        (removeInternal p t.id, true, [PoolEvent.removed t.id EvReason.evPoolFull]) := by
  unfold evictProcessable
  cases hm : minByFee (frontiers p) with
  | none => exact Or.inl rfl
  | some t => exact Or.inr ⟨t, rfl, rfl⟩

theorem capArb_cases {p : Pool} {prio : Nat} {p1 : Pool} {evs1 : List PoolEvent}
    (h : capacityArbitration p prio = some (p1, evs1)) :
    (p1 = p ∧ evs1 = []) ∨
    (p.allTransactions.length = p.maxTransactions ∧
      ∃ i, p1 = removeInternal p i ∧
        evs1 = [PoolEvent.removed i EvReason.evPoolFull]) := by
  unfold capacityArbitration at h
  by_cases hlen : p.allTransactions.length = p.maxTransactions
  · rw [if_pos hlen] at h
    by_cases hpr : capProceed p prio = true
    · rw [if_pos hpr] at h
      rcases Bool.eq_false_or_eq_true (evictUnprocessable p).2.1 with hu | hu
      · rw [hu, if_pos rfl] at h
        rcases evictUnprocessable_cases p with hE | ⟨i, hE, _⟩
        · rw [hE] at hu; exact absurd hu (by simp)
        · rw [hE] at h
          injection h with h'
          obtain ⟨h1, h2⟩ := Prod.mk.injEq .. ▸ h'
          exact Or.inr ⟨hlen, i, h1.symm, h2.symm⟩
      · rw [hu] at h
        rw [if_neg (by simp)] at h
        rcases Bool.eq_false_or_eq_true (evictProcessable p).2.1 with hv | hv
        · rw [hv, if_pos rfl] at h
          rcases evictProcessable_cases p with hE | ⟨t, _, hE⟩
          · rw [hE] at hv; exact absurd hv (by simp)
          · rw [hE] at h
            injection h with h'
            obtain ⟨h1, h2⟩ := Prod.mk.injEq .. ▸ h'
            exact Or.inr ⟨hlen, t.id, h1.symm, h2.symm⟩
        · rw [hv] at h
          rw [if_neg (by simp)] at h
          exact absurd h (by simp)
    · rw [if_neg hpr] at h
      exact absurd h (by simp)
  · rw [if_neg hlen] at h
    injection h with h'
    obtain ⟨h1, h2⟩ := Prod.mk.injEq .. ▸ h'
    exact Or.inl ⟨h1.symm, h2.symm⟩

theorem removeInternal_all_subset (p : Pool) (i : Nat) :
    ∀ x ∈ (removeInternal p i).allTransactions, x ∈ p.allTransactions := by
  unfold removeInternal
  cases getTx p i with
  | none => exact fun x hx => hx
  | some found => exact fun x hx => List.filter_subset' _ hx

theorem containsTx_removeInternal {p : Pool} {j : Nat} (i : Nat)
    (h : containsTx p j = false) :
    containsTx (removeInternal p i) j = false := by
  cases hc : containsTx (removeInternal p i) j with
  | false => rfl
  | true =>
    exfalso
    rcases List.any_eq_true.mp hc with ⟨x, hx, hxj⟩
    have hx' : x ∈ p.allTransactions := removeInternal_all_subset p i x hx
    have : p.allTransactions.any (fun t => t.id = j) = true :=
      List.any_eq_true.mpr ⟨x, hx', hxj⟩
    rw [containsTx] at h
    rw [h] at this
    exact absurd this (by simp)

theorem listAdd_rejected_shape {L : TxList} {tx : Tx} {a b : Nat} {fl : Bool}
    {L1 : TxList} {r : ErrKind}
    (h : listAdd L tx a b fl = (L1, ListAddOutcome.rejected r)) :
    r = ErrKind.processableNonceLocked ∨ r = ErrKind.insufficientReplacementFee ∨
    r = ErrKind.poolFullForAccount := by
  unfold listAdd at h
  split at h
  next inc hfind =>
    rcases Bool.eq_false_or_eq_true (L.processableNonces.contains tx.nonce) with hlock | hlock
    · rw [hlock, if_pos rfl] at h
      obtain ⟨_, h2⟩ := Prod.mk.injEq .. ▸ h
      injection h2.symm with h3
      exact Or.inl h3
    · rw [hlock] at h
      rw [if_neg (by simp)] at h
      by_cases hfee : tx.fee < inc.fee + b
      · rw [if_pos hfee] at h
        obtain ⟨_, h2⟩ := Prod.mk.injEq .. ▸ h
        injection h2.symm with h3
        exact Or.inr (Or.inl h3)
      · rw [if_neg hfee] at h
        simp at h
  next hfind =>
    by_cases hcap : a ≤ L.byNonce.length
    · rw [if_pos hcap] at h
      by_cases hall : L.byNonce.all (fun t => t.nonce < tx.nonce) = true
      · rw [if_pos hall] at h
        obtain ⟨_, h2⟩ := Prod.mk.injEq .. ▸ h
        injection h2.symm with h3
        exact Or.inr (Or.inr h3)
      · rw [if_neg hall] at h
        cases hlast : (getUnprocessable L).getLast? with
        | none =>
          rw [hlast] at h
          obtain ⟨_, h2⟩ := Prod.mk.injEq .. ▸ h
          injection h2.symm with h3
          exact Or.inr (Or.inr h3)
        | some victim =>
          rw [hlast] at h
          simp at h
    · rw [if_neg hcap] at h
      simp at h

end TxPool

namespace TxPool

/-! ### C10 — atomicity of rejection -/

/-- Modelled from the spec: an incoming transaction from a fresh sender with
fee priority `(5000-10)/10 = 499`. -/
def txB : Tx := ⟨2, 200, 1, 5000, 10, 10, 0⟩

/-- Modelled from the spec: a pool at capacity (`max_transactions = 1`)
holding `txA` unprocessable. -/
def pCE : Pool := ⟨[txA], [(100, ⟨[txA], []⟩)], [(99, 1)], 1, 64, 0, 10⟩

/-- Counterexample to C10 as stated: on a full pool holding one
unprocessable resident, an incoming transaction that beats the queue
minimum but whose apply verdict is a non-recoverable FAIL is rejected with
`{FAIL, invalid_transaction}` — yet the capacity eviction performed before
the apply probe persists: the pool state changed and a
`transaction:removed` event was emitted. -/
theorem C10_counterexample :
    (add pCE txB fBad).2.1.status = AddStatus.FAIL ∧
    (add pCE txB fBad).1 ≠ pCE ∧
    (add pCE txB fBad).2.2 ≠ [] := by
  refine ⟨by decide, by decide, by decide⟩

/-- Claim C10 as amended: a rejection with `insufficient_entrance_fee` or
`pool_full` leaves the pool unchanged and emits no event, and so does every
rejection issued while the pool is below capacity; for the remaining
failure kinds at capacity, the only possible state change is the capacity
eviction performed before the failure: every rejected call ends in either
the original pool with no events, or in exactly `removeInternal p i` for
one evictee `i` with exactly the one event
`transaction:removed(i, pool_full)` — so `lists` and the fee-priority
queue change only by that single removal; nothing is ever inserted, the
incoming id stays absent, and no `transaction:added` is emitted. -/
theorem C10_rejection_atomicity_amended :
    ∀ (p : Pool) (tx : Tx) (f : Tx → ApplyVerdict),
      (add p tx f).2.1.status = AddStatus.FAIL →
      (((add p tx f).2.1.error = some ErrKind.insufficientEntranceFee ∨
        (add p tx f).2.1.error = some ErrKind.poolFull) →
        add p tx f = (p, (add p tx f).2.1, [])) ∧
      (p.allTransactions.length ≠ p.maxTransactions →
        add p tx f = (p, (add p tx f).2.1, [])) ∧
      (add p tx f = (p, (add p tx f).2.1, []) ∨
       ∃ i, add p tx f =
         (removeInternal p i, (add p tx f).2.1,
          [PoolEvent.removed i EvReason.evPoolFull])) ∧
      (∀ x ∈ (add p tx f).1.allTransactions, x ∈ p.allTransactions) ∧
      containsTx (add p tx f).1 tx.id = false ∧
      (∀ e ∈ (add p tx f).2.2, ∃ j, e = PoolEvent.removed j EvReason.evPoolFull) := by
  intro p tx f hfail
  have hdup : containsTx p tx.id = false := by
    cases hc : containsTx p tx.id with
    | false => rfl
    | true => rw [add_of_dup hc] at hfail; exact absurd hfail (by simp)
  by_cases hfloor : feePriority tx < p.minEntranceFeePriority
  · have hE := add_of_floor (f := f) hdup hfloor
    refine ⟨fun _ => by rw [hE], fun _ => by rw [hE], Or.inl (by rw [hE]), ?_, ?_, ?_⟩
    · rw [hE]; exact fun x hx => hx
    · rw [hE]; exact hdup
    · rw [hE]; intro e he; exact absurd he (by simp)
  · cases hcap : capacityArbitration p (feePriority tx) with
    | none =>
      have hE := add_of_capNone (f := f) hdup hfloor hcap
      refine ⟨fun _ => by rw [hE], fun _ => by rw [hE], Or.inl (by rw [hE]), ?_, ?_, ?_⟩
      · rw [hE]; exact fun x hx => hx
      · rw [hE]; exact hdup
      · rw [hE]; intro e he; exact absurd he (by simp)
    | some pe =>
      rcases pe with ⟨p1, evs1⟩
      have hres : ∃ res : AddResult, add p tx f = (p1, res, evs1) ∧
          (res.error = some ErrKind.invalidTransaction ∨
           ∃ r, res.error = some r ∧
             (r = ErrKind.processableNonceLocked ∨
              r = ErrKind.insufficientReplacementFee ∨
              r = ErrKind.poolFullForAccount)) := by
        cases hv : f tx with
        | FailOther =>
          exact ⟨⟨AddStatus.FAIL, some ErrKind.invalidTransaction⟩,
            add_of_capSome_failOther hdup hfloor hcap hv, Or.inl rfl⟩
        | OK =>
          have hadd := add_of_capSome_ok hdup hfloor hcap hv
          rcases hla : listAdd ((lookupList p1 tx.senderAddress).getD ⟨[], []⟩) tx
              p1.maxTransactionsPerAccount p1.minReplacementFeeDifference true with ⟨L1, out⟩
          cases out with
          | added rid =>
            exfalso
            have hok := (admit_added_result (v := evs1) hla).2
            rw [hadd, hok] at hfail
            exact absurd hfail (by simp)
          | rejected r =>
            have hE := admit_rejected_result (v := evs1) hla
            exact ⟨⟨AddStatus.FAIL, some r⟩, by rw [hadd, hE],
              Or.inr ⟨r, rfl, listAdd_rejected_shape hla⟩⟩
        | FailNonceGap =>
          have hadd := add_of_capSome_gap hdup hfloor hcap hv
          rcases hla : listAdd ((lookupList p1 tx.senderAddress).getD ⟨[], []⟩) tx
              p1.maxTransactionsPerAccount p1.minReplacementFeeDifference false with ⟨L1, out⟩
          cases out with
          | added rid =>
            exfalso
            have hok := (admit_added_result (v := evs1) hla).2
            rw [hadd, hok] at hfail
            exact absurd hfail (by simp)
          | rejected r =>
            have hE := admit_rejected_result (v := evs1) hla
            exact ⟨⟨AddStatus.FAIL, some r⟩, by rw [hadd, hE],
              Or.inr ⟨r, rfl, listAdd_rejected_shape hla⟩⟩
      rcases hres with ⟨res, hE, herr⟩
      rcases capArb_cases hcap with ⟨hp1, hevs⟩ | ⟨hlen, i, hp1, hevs⟩
      · subst hp1; subst hevs
        refine ⟨fun _ => by rw [hE], fun _ => by rw [hE], Or.inl (by rw [hE]), ?_, ?_, ?_⟩
        · rw [hE]; exact fun x hx => hx
        · rw [hE]; exact hdup
        · rw [hE]; intro e he; exact absurd he (by simp)
      · subst hp1; subst hevs
        refine ⟨?_, fun hne => absurd hlen hne, Or.inr ⟨i, by rw [hE]⟩, ?_, ?_, ?_⟩
        · intro hor
          rw [hE] at hor
          exfalso
          rcases herr with hinv | ⟨r, hr, hshape⟩
          · rcases hor with h1 | h1 <;> rw [hinv] at h1 <;> simp at h1
          · rcases hshape with rfl | rfl | rfl <;>
              rcases hor with h1 | h1 <;> rw [hr] at h1 <;> simp at h1
        · rw [hE]; exact removeInternal_all_subset p i
        · rw [hE]; exact containsTx_removeInternal i hdup
        · rw [hE]
          intro e he
          simp only [List.mem_singleton] at he
          exact ⟨i, he⟩

/-- Witness for the amended C10 at a concrete input: the entrance-fee
rejection of the C9 scenario leaves the pool unchanged with no events. -/
theorem C10_rejection_atomicity_amended_witness :
    add pFloor tx9 fBad = (pFloor, (add pFloor tx9 fBad).2.1, []) :=
  (C10_rejection_atomicity_amended pFloor tx9 fBad (by decide)).1 (Or.inl (by decide))

end TxPool

namespace TxPool

/-! ### C4 — capacity arbitration order at a full pool -/

/-- Claim C4: with the pool at capacity (and the incoming transaction
neither a duplicate nor below the entrance floor), `add` rejects with
`pool_full` whenever the incoming fee priority is at most the queue minimum
`m`; on strict improvement the arbitration evicts an unprocessable
transaction first — whenever one exists, the evictee is unprocessable — and
only when no unprocessable transaction exists does it fall back to
`_evict_processable`; if that also fails, `add` rejects with `pool_full`. -/
theorem C4_capacity_arbitration :
    ∀ (p : Pool) (tx : Tx) (f : Tx → ApplyVerdict) (m : Nat) (i : Nat),
      containsTx p tx.id = false →
      ¬ feePriority tx < p.minEntranceFeePriority →
      p.allTransactions.length = p.maxTransactions →
      p.feePriorityQueue.head? = some (m, i) →
      (∀ e ∈ p.feePriorityQueue, m ≤ e.1) →
      ((feePriority tx ≤ m →
        add p tx f = (p, ⟨AddStatus.FAIL, some ErrKind.poolFull⟩, [])) ∧
       (m < feePriority tx →
        ((∃ e ∈ p.feePriorityQueue, txUnprocessable p e.2 = true) →
          ∃ j, txUnprocessable p j = true ∧
            capacityArbitration p (feePriority tx) =
              some (removeInternal p j, [PoolEvent.removed j EvReason.evPoolFull])) ∧
        ((∀ e ∈ p.feePriorityQueue, txUnprocessable p e.2 = false) →
          ((evictProcessable p).2.1 = true →
            capacityArbitration p (feePriority tx) =
              some ((evictProcessable p).1, (evictProcessable p).2.2)) ∧
          ((evictProcessable p).2.1 = false →
            add p tx f = (p, ⟨AddStatus.FAIL, some ErrKind.poolFull⟩, []))))) := by
  intro p tx f m i hdup hfloor hlen hhead hmin
  constructor
  · intro hle
    have hcp : capProceed p (feePriority tx) = false := by
      unfold capProceed
      rw [hhead]
      simp only [decide_eq_false_iff_not]
      exact Nat.not_lt.mpr hle
    have hcap : capacityArbitration p (feePriority tx) = none := by
      unfold capacityArbitration
      rw [if_pos hlen, hcp]
      simp
    exact add_of_capNone hdup hfloor hcap
  · intro hm
    have hcp : capProceed p (feePriority tx) = true := by
      unfold capProceed
      rw [hhead]
      simpa using hm
    constructor
    · rintro ⟨e, he, hue⟩
      obtain ⟨e', hf⟩ : ∃ e',
          p.feePriorityQueue.find? (fun e => txUnprocessable p e.2) = some e' := by
        cases hf : p.feePriorityQueue.find? (fun e => txUnprocessable p e.2) with
        | none =>
          exfalso
          have := List.find?_eq_none.mp hf e he
          simp [hue] at this
        | some e' => exact ⟨e', rfl⟩
      have hEu : evictUnprocessable p =
          (removeInternal p e'.2, true, [PoolEvent.removed e'.2 EvReason.evPoolFull]) := by
        unfold evictUnprocessable
        rw [hf]
      refine ⟨e'.2, by simpa using List.find?_some hf, ?_⟩
      unfold capacityArbitration
      simp [hlen, hcp, hEu]
    · intro hall
      have hf : p.feePriorityQueue.find? (fun e => txUnprocessable p e.2) = none := by
        apply List.find?_eq_none.mpr
        intro x hx
        simp [hall x hx]
      have hEu : evictUnprocessable p = (p, false, []) := by
        unfold evictUnprocessable
        rw [hf]
      constructor
      · intro hv
        unfold capacityArbitration
        simp [hlen, hcp, hEu, hv]
      · intro hv
        have hcap : capacityArbitration p (feePriority tx) = none := by
          unfold capacityArbitration
          simp [hlen, hcp, hEu, hv]
        exact add_of_capNone hdup hfloor hcap

/-- Modelled from the spec: an incoming transaction of fee priority 9,
below the resident priority 99. -/
def txLow : Tx := ⟨3, 300, 1, 100, 10, 10, 0⟩

/-- Witness for C4 at a concrete input: on the full one-slot pool holding a
priority-99 resident, an incoming transaction of priority 9 is rejected
with `pool_full` and nothing changes. -/
theorem C4_capacity_arbitration_witness :
    add pCE txLow fOK = (pCE, ⟨AddStatus.FAIL, some ErrKind.poolFull⟩, []) :=
  (C4_capacity_arbitration pCE txLow fOK 99 1 (by decide) (by decide) (by decide)
    (by decide) (by decide)).1 (by decide)

end TxPool

namespace TxPool

/-! ### C8 — removal semantics -/

/-- Claim C8: `remove(tx)` returns true exactly when the id is resident; an
absent id is a no-op returning false; on success the id is deleted from
`all_transactions`, from the owning sender list's `by_nonce` (and from its
`processable_nonces` if present) and from the fee-priority queue, and a
sender list emptied by the removal is deleted from `lists`. -/
theorem C8_remove :
    ∀ (p : Pool) (tx : Tx),
      ((poolRemove p tx).2.1 = true ↔ containsTx p tx.id = true) ∧
      (containsTx p tx.id = false → poolRemove p tx = (p, false, [])) ∧
      (∀ r L, getTx p tx.id = some r →
        lookupList p r.senderAddress = some L →
        (poolRemove p tx =
          (removeInternal p tx.id, true, [PoolEvent.removed tx.id EvReason.evExplicit]) ∧
         (removeInternal p tx.id).allTransactions =
           p.allTransactions.filter (fun t => t.id ≠ tx.id) ∧
         (removeInternal p tx.id).feePriorityQueue =
           p.feePriorityQueue.filter (fun e => e.2 ≠ tx.id) ∧
         (removeInternal p tx.id).lists =
           updateLists p.lists r.senderAddress (listRemoveNonce L r.nonce) ∧
         (listRemoveNonce L r.nonce).byNonce =
           L.byNonce.filter (fun t => t.nonce ≠ r.nonce) ∧
         (listRemoveNonce L r.nonce).processableNonces =
           L.processableNonces.filter (fun n => n ≠ r.nonce) ∧
         ((listRemoveNonce L r.nonce).byNonce = [] →
           ∀ L', (r.senderAddress, L') ∉ (removeInternal p tx.id).lists))) := by
  intro p tx
  refine ⟨?_, ?_, ?_⟩
  · cases hc : containsTx p tx.id with
    | true => simp [poolRemove, hc]
    | false => simp [poolRemove, hc]
  · intro hc
    simp [poolRemove, hc]
  · intro r L hr hL
    have hr' : p.allTransactions.find? (fun t => t.id = tx.id) = some r := hr
    have hmemr := List.mem_of_find?_eq_some hr'
    have hpredr := List.find?_some hr'
    have hc : containsTx p tx.id = true :=
      List.any_eq_true.mpr ⟨r, hmemr, hpredr⟩
    have hRI : removeInternal p tx.id =
        { p with
          allTransactions := p.allTransactions.filter (fun t => t.id ≠ tx.id),
          lists := updateLists p.lists r.senderAddress (listRemoveNonce L r.nonce),
          feePriorityQueue := p.feePriorityQueue.filter (fun e => e.2 ≠ tx.id) } := by
      unfold removeInternal
      rw [hr]
      dsimp only
      rw [hL]
    refine ⟨by simp [poolRemove, hc], by rw [hRI], by rw [hRI], by rw [hRI], rfl, rfl, ?_⟩
    intro hemp L' hmem
    rw [hRI] at hmem
    simp only at hmem
    unfold updateLists at hmem
    rw [if_pos (by simpa using hemp)] at hmem
    have := (List.mem_filter.mp hmem).2
    simp at this

/-- Witness for C8 at a concrete input: removing the resident `txA` from
`pW` succeeds with an explicit removal event and the remove-by-id state
update. -/
theorem C8_remove_witness :
    poolRemove pW txA =
      (removeInternal pW txA.id, true, [PoolEvent.removed txA.id EvReason.evExplicit]) :=
  ((C8_remove pW txA).2.2 txA ⟨[txA], []⟩ (by decide) (by decide)).1

end TxPool

namespace TxPool

/-! ### Sorted-list infrastructure for reorganize and processable eviction -/

theorem ascNonce_tail {a : Tx} {l : List Tx} (h : ascNonce (a :: l) = true) :
    ascNonce l = true := by
  cases l with
  | nil => rfl
  | cons b rest =>
    have h' : (decide (a.nonce < b.nonce) && ascNonce (b :: rest)) = true := h
    exact (Bool.and_eq_true .. ▸ h').2

theorem ascNonce_head_lt : ∀ {l : List Tx} {a : Tx}, ascNonce (a :: l) = true →
    ∀ u ∈ l, a.nonce < u.nonce := by
  intro l
  induction l with
  | nil => intro a _ u hu; exact absurd hu (by simp)
  | cons b rest ih =>
    intro a h u hu
    have h' : (decide (a.nonce < b.nonce) && ascNonce (b :: rest)) = true := h
    have hab : a.nonce < b.nonce := of_decide_eq_true (Bool.and_eq_true .. ▸ h').1
    have htl : ascNonce (b :: rest) = true := (Bool.and_eq_true .. ▸ h').2
    rcases List.mem_cons.mp hu with rfl | hur
    · exact hab
    · exact Nat.lt_trans hab (ih htl u hur)

theorem ascNonce_pairwise : ∀ {l : List Tx}, ascNonce l = true →
    l.Pairwise (fun s t => s.nonce < t.nonce) := by
  intro l
  induction l with
  | nil => intro _; exact List.Pairwise.nil
  | cons a rest ih =>
    intro h
    exact List.Pairwise.cons (ascNonce_head_lt h) (ih (ascNonce_tail h))

theorem mem_of_getLastEq : ∀ {l : List Tx} {m : Tx}, l.getLast? = some m → m ∈ l := by
  intro l
  induction l with
  | nil => intro m h; simp at h
  | cons a rest ih =>
    intro m h
    cases rest with
    | nil =>
      simp at h
      simp [h]
    | cons b r2 =>
      rw [List.getLast?_cons_cons] at h
      exact List.mem_cons_of_mem a (ih h)

theorem last_nonce_max : ∀ {l : List Tx},
    l.Pairwise (fun s t => s.nonce < t.nonce) → ∀ {m : Tx}, l.getLast? = some m →
    ∀ c ∈ l, c.nonce ≤ m.nonce := by
  intro l
  induction l with
  | nil => intro _ m h; simp at h
  | cons a rest ih =>
    intro hp m h c hc
    cases rest with
    | nil =>
      simp at h
      rcases List.mem_cons.mp hc with rfl | hcr
      · rw [h]
      · exact absurd hcr (by simp)
    | cons b r2 =>
      rw [List.getLast?_cons_cons] at h
      rcases List.mem_cons.mp hc with rfl | hcr
      · have hm : m ∈ b :: r2 := mem_of_getLastEq h
        exact Nat.le_of_lt ((List.pairwise_cons.mp hp).1 m hm)
      · exact ih (List.pairwise_cons.mp hp).2 h c hcr

theorem filter_contains_take (l : List Tx) (hasc : ascNonce l = true) (k : Nat) :
    l.filter (fun t => ((l.map Tx.nonce).take k).contains t.nonce) = l.take k := by
  induction l generalizing k with
  | nil => simp
  | cons a ts ih =>
    cases k with
    | zero => simp
    | succ k' =>
      have hlt := ascNonce_head_lt hasc
      have htl := ascNonce_tail hasc
      simp only [List.map_cons, List.take_succ_cons]
      rw [List.filter_cons_of_pos (by simp)]
      have hcong : ts.filter
            (fun t => ((a.nonce :: (ts.map Tx.nonce).take k').contains t.nonce)) =
          ts.filter (fun t => (((ts.map Tx.nonce).take k').contains t.nonce)) := by
        apply List.filter_congr
        intro u hu
        rw [List.contains_cons]
        have hne : (u.nonce == a.nonce) = false := by
          simp only [beq_eq_false_iff_ne]
          exact Nat.ne_of_gt (hlt u hu)
        rw [hne]
        simp
      rw [hcong, ih htl k']

theorem filter_not_contains_take (l : List Tx) (hasc : ascNonce l = true) (k : Nat) :
    l.filter (fun t => !(((l.map Tx.nonce).take k).contains t.nonce)) = l.drop k := by
  induction l generalizing k with
  | nil => simp
  | cons a ts ih =>
    cases k with
    | zero => simp
    | succ k' =>
      have hlt := ascNonce_head_lt hasc
      have htl := ascNonce_tail hasc
      simp only [List.map_cons, List.take_succ_cons, List.drop_succ_cons]
      rw [List.filter_cons_of_neg (by simp)]
      have hcong : ts.filter
            (fun t => !((a.nonce :: (ts.map Tx.nonce).take k').contains t.nonce)) =
          ts.filter (fun t => !(((ts.map Tx.nonce).take k').contains t.nonce)) := by
        apply List.filter_congr
        intro u hu
        rw [List.contains_cons]
        have hne : (u.nonce == a.nonce) = false := by
          simp only [beq_eq_false_iff_ne]
          exact Nat.ne_of_gt (hlt u hu)
        rw [hne]
        simp
      rw [hcong, ih htl k']

theorem getProcessable_take {L : TxList} (hasc : ascNonce L.byNonce = true) {k : Nat}
    (hk : L.processableNonces = (L.byNonce.map Tx.nonce).take k) :
    getProcessable L = L.byNonce.take k := by
  unfold getProcessable
  rw [hk]
  exact filter_contains_take L.byNonce hasc k

theorem getUnprocessable_drop {L : TxList} (hasc : ascNonce L.byNonce = true) {k : Nat}
    (hk : L.processableNonces = (L.byNonce.map Tx.nonce).take k) :
    getUnprocessable L = L.byNonce.drop k := by
  unfold getUnprocessable
  rw [hk]
  exact filter_not_contains_take L.byNonce hasc k

end TxPool

namespace TxPool

theorem promotableFrom_take (n : Nat) (us : List Tx) :
    ∃ j, promotableFrom n us = us.take j := by
  induction us generalizing n with
  | nil => exact ⟨0, rfl⟩
  | cons u us' ih =>
    unfold promotableFrom
    by_cases h : u.nonce = n
    · rcases ih (n + 1) with ⟨j, hj⟩
      exact ⟨j + 1, by rw [if_pos h, hj, List.take_succ_cons]⟩
    · exact ⟨0, by rw [if_neg h, List.take_zero]⟩

theorem promotableFrom_subset {n : Nat} {us : List Tx} {t : Tx}
    (h : t ∈ promotableFrom n us) : t ∈ us := by
  rcases promotableFrom_take n us with ⟨j, hj⟩
  rw [hj] at h
  exact List.take_subset j us h

theorem promotableFrom_covers : ∀ {us : List Tx} {n : Nat} {c : Tx},
    c ∈ promotableFrom n us → ∀ g, n ≤ g → g ≤ c.nonce →
    ∃ u ∈ promotableFrom n us, u.nonce = g := by
  intro us
  induction us with
  | nil => intro n c hc; simp [promotableFrom] at hc
  | cons u us' ih =>
    intro n c hc g hng hgc
    unfold promotableFrom at hc ⊢
    by_cases h0 : u.nonce = n
    · rw [if_pos h0] at hc ⊢
      rcases List.mem_cons.mp hc with rfl | hcr
      · have hgn : g = n := Nat.le_antisymm (h0 ▸ hgc) hng
        exact ⟨c, List.mem_cons_self .., by rw [h0, hgn]⟩
      · by_cases hgn : g = n
        · exact ⟨u, List.mem_cons_self .., by rw [h0, hgn]⟩
        · have hng' : n + 1 ≤ g := by omega
          rcases ih hcr g hng' hgc with ⟨u', hu', he⟩
          exact ⟨u', List.mem_cons_of_mem u hu', he⟩
    · rw [if_neg h0] at hc
      exact absurd hc (by simp)

theorem getPromotable_take {L : TxList} (hasc : ascNonce L.byNonce = true) {k : Nat}
    (hk : L.processableNonces = (L.byNonce.map Tx.nonce).take k) :
    ∃ j, getPromotable L = (L.byNonce.drop k).take j := by
  unfold getPromotable
  rw [getUnprocessable_drop hasc hk]
  cases hd : L.byNonce.drop k with
  | nil => exact ⟨0, rfl⟩
  | cons u us =>
    cases hgl : (getProcessable L).getLast? with
    | none =>
      rcases promotableFrom_take (u.nonce + 1) us with ⟨j, hj⟩
      refine ⟨j + 1, ?_⟩
      show u :: promotableFrom (u.nonce + 1) us = (u :: us).take (j + 1)
      rw [hj, List.take_succ_cons]
    | some m =>
      rcases promotableFrom_take (m.nonce + 1) (u :: us) with ⟨j, hj⟩
      exact ⟨j, hj⟩

theorem getUnprocessable_subset {L : TxList} {x : Tx} (h : x ∈ getUnprocessable L) :
    x ∈ L.byNonce := by
  unfold getUnprocessable at h
  exact List.filter_subset' _ h

theorem getProcessable_subset {L : TxList} {x : Tx} (h : x ∈ getProcessable L) :
    x ∈ L.byNonce := by
  unfold getProcessable at h
  exact List.filter_subset' _ h

theorem getPromotable_covers {L : TxList} (hwf : wfList L) {c : Tx}
    (hc : c ∈ getPromotable L) :
    ∀ g, promoStart L ≤ g → g ≤ c.nonce → ∃ u ∈ L.byNonce, u.nonce = g := by
  intro g hg hgc
  obtain ⟨hasc, hk⟩ := hwf
  have hproc := getProcessable_take hasc hk
  have hunp := getUnprocessable_drop hasc hk
  unfold getPromotable at hc
  cases hun : getUnprocessable L with
  | nil => rw [hun] at hc; exact absurd hc (by simp)
  | cons u us =>
    rw [hun] at hc
    have hsub : ∀ x ∈ u :: us, x ∈ L.byNonce := by
      intro x hx
      rw [← hun] at hx
      exact getUnprocessable_subset hx
    cases hgl : (getProcessable L).getLast? with
    | none =>
      rw [hgl] at hc
      have hpnil : getProcessable L = [] := List.getLast?_eq_none_iff.mp hgl
      rw [hproc] at hpnil
      rcases List.take_eq_nil_iff.mp hpnil with hk0 | hbnil
      · have hbn : L.byNonce = u :: us := by
          rw [hk0] at hunp
          simp only [List.drop_zero] at hunp
          rw [hun] at hunp
          exact hunp.symm
        have hps : promoStart L = u.nonce := by
          unfold promoStart
          rw [hgl, hbn]
          rfl
        rcases List.mem_cons.mp hc with rfl | hcr
        · have hgn : g = c.nonce := Nat.le_antisymm hgc (hps ▸ hg)
          exact ⟨c, by rw [hbn]; exact List.mem_cons_self .., hgn.symm⟩
        · by_cases hgu : g = u.nonce
          · exact ⟨u, by rw [hbn]; exact List.mem_cons_self .., hgu.symm⟩
          · have hg' : u.nonce + 1 ≤ g := by
              have := hps ▸ hg
              omega
            rcases promotableFrom_covers hcr g hg' hgc with ⟨u', hu', he⟩
            exact ⟨u', hsub u' (List.mem_cons_of_mem u (promotableFrom_subset hu')), he⟩
      · exfalso
        have : getUnprocessable L = [] := by
          rw [hunp, hbnil]
          simp
        rw [hun] at this
        exact absurd this (by simp)
    | some m =>
      rw [hgl] at hc
      have hps : promoStart L = m.nonce + 1 := by
        unfold promoStart
        rw [hgl]
      rcases promotableFrom_covers hc g (hps ▸ hg) hgc with ⟨u', hu', he⟩
      exact ⟨u', hsub u' (promotableFrom_subset hu'), he⟩

theorem takeWhile_take (p : Tx → Bool) : ∀ l : List Tx, ∃ i, l.takeWhile p = l.take i := by
  intro l
  induction l with
  | nil => exact ⟨0, rfl⟩
  | cons a ts ih =>
    by_cases h : p a = true
    · rcases ih with ⟨i, hi⟩
      exact ⟨i + 1, by rw [List.takeWhile_cons_of_pos h, hi, List.take_succ_cons]⟩
    · exact ⟨0, List.takeWhile_cons_of_neg h⟩

end TxPool

namespace TxPool

/-! ### C6 — reorganize promotes exactly the longest OK prefix -/

/-- Claim C6: after a reorganize pass over a well-formed sender list, the
new processable set is exactly (the nonces of) the longest prefix of
`get_processable ++ get_promotable` whose apply verdicts are all OK;
`by_nonce` is untouched; invariant I4 is preserved (the new
`processable_nonces` is again a contiguous prefix of the sorted nonce
order, starting at the smallest nonce present); and a transaction beyond an
arithmetic nonce gap — a nonce `g` with `promo_start ≤ g < t.nonce` held by
no transaction of the sender — is never promoted, whatever the verdicts
(in particular even when `apply` returns OK for it). -/
theorem C6_reorganize_contiguous_prefix :
    ∀ (f : Tx → ApplyVerdict) (L : TxList), wfList L →
      ((reorganizeList f L).processableNonces =
        ((getProcessable L ++ getPromotable L).takeWhile
          (fun t => f t == ApplyVerdict.OK)).map Tx.nonce) ∧
      (reorganizeList f L).byNonce = L.byNonce ∧
      wfList (reorganizeList f L) ∧
      (∀ t ∈ L.byNonce, ∀ g : Nat,
        promoStart L ≤ g → g < t.nonce → (∀ u ∈ L.byNonce, u.nonce ≠ g) →
        t.nonce ∉ (reorganizeList f L).processableNonces) := by
  intro f L hwf
  obtain ⟨hasc, hk⟩ := hwf
  have hproc := getProcessable_take hasc hk
  rcases getPromotable_take hasc hk with ⟨j, hprom⟩
  have hcands : getProcessable L ++ getPromotable L =
      L.byNonce.take (L.processableNonces.length + j) := by
    rw [hproc, hprom, List.take_add]
  rcases takeWhile_take (fun t => f t == ApplyVerdict.OK)
      (getProcessable L ++ getPromotable L) with ⟨i, hi⟩
  have hnew : (reorganizeList f L).processableNonces =
      (L.byNonce.map Tx.nonce).take (min i (L.processableNonces.length + j)) := by
    show ((getProcessable L ++ getPromotable L).takeWhile
        (fun t => f t == ApplyVerdict.OK)).map Tx.nonce = _
    rw [hi, hcands, List.take_take, List.map_take]
  refine ⟨rfl, rfl, ⟨hasc, ?_⟩, ?_⟩
  · show (reorganizeList f L).processableNonces =
        (L.byNonce.map Tx.nonce).take (reorganizeList f L).processableNonces.length
    rw [hnew, List.length_take, List.take_eq_take]
    omega
  · intro t ht g hg hgt hgap hmem
    have hmem' : t.nonce ∈ ((getProcessable L ++ getPromotable L).takeWhile
        (fun t => f t == ApplyVerdict.OK)).map Tx.nonce := hmem
    rcases List.mem_map.mp hmem' with ⟨c, hcw, hce⟩
    have hcc : c ∈ getProcessable L ++ getPromotable L := by
      rw [hi] at hcw
      exact List.take_subset i _ hcw
    rcases List.mem_append.mp hcc with hcp | hcq
    · cases hgl : (getProcessable L).getLast? with
      | none =>
        rw [List.getLast?_eq_none_iff.mp hgl] at hcp
        exact absurd hcp (by simp)
      | some m =>
        have hpw : (getProcessable L).Pairwise (fun s t => s.nonce < t.nonce) := by
          rw [hproc]
          exact (ascNonce_pairwise hasc).sublist (List.take_sublist _ _)
        have hple : c.nonce ≤ m.nonce := last_nonce_max hpw hgl c hcp
        have hps : promoStart L = m.nonce + 1 := by
          unfold promoStart
          rw [hgl]
        rw [hps] at hg
        omega
    · have hcov := getPromotable_covers ⟨hasc, hk⟩ hcq g hg (by omega)
      rcases hcov with ⟨u, hu, hue⟩
      exact hgap u hu hue

/-- Modelled from the spec: the scenario-5 transaction with nonce 9
(section 8). -/
def txN9 : Tx := ⟨9, 100, 9, 1000, 10, 10, 0⟩

/-- Modelled from the spec: the scenario-5 sender list holding nonces
1, 2, 9, none processable yet (section 8). -/
def L6 : TxList := ⟨[txA, txW, txN9], []⟩

/-- Witness for C6 at the concrete scenario 5 of the specification: with
all-OK verdicts on nonces 1, 2, 9, reorganize promotes exactly {1, 2} and
the gap transaction with nonce 9 stays unprocessable. -/
theorem C6_reorganize_contiguous_prefix_witness :
    ((reorganizeList fOK L6).processableNonces =
      ((getProcessable L6 ++ getPromotable L6).takeWhile
        (fun t => fOK t == ApplyVerdict.OK)).map Tx.nonce) ∧
    (reorganizeList fOK L6).processableNonces = [1, 2] ∧
    (9 : Nat) ∉ (reorganizeList fOK L6).processableNonces := by
  have h := C6_reorganize_contiguous_prefix fOK L6 ⟨rfl, rfl⟩
  exact ⟨h.1, by decide, h.2.2.2 txN9 (by decide) 3 (by decide) (by decide) (by decide)⟩

end TxPool

namespace TxPool

/-! ### Selection lemmas for processable eviction -/

theorem minByFee_none : ∀ {l : List Tx}, minByFee l = none → l = [] := by
  intro l h
  cases l with
  | nil => rfl
  | cons a ts =>
    unfold minByFee at h
    cases hm : minByFee ts with
    | none => rw [hm] at h; simp at h
    | some u =>
      rw [hm] at h
      dsimp only at h
      split at h <;> simp at h

theorem minByFee_spec : ∀ (l : List Tx) (t : Tx), minByFee l = some t →
    t ∈ l ∧ ∀ u ∈ l, feePriority t ≤ feePriority u := by
  intro l
  induction l with
  | nil => intro t h; simp [minByFee] at h
  | cons a ts ih =>
    intro t h
    unfold minByFee at h
    cases hm : minByFee ts with
    | none =>
      rw [hm] at h
      dsimp only at h
      have hts : ts = [] := minByFee_none hm
      injection h with h'
      subst h'
      subst hts
      refine ⟨List.mem_cons_self .., ?_⟩
      intro u hu
      rcases List.mem_cons.mp hu with rfl | h2
      · exact Nat.le_refl _
      · exact absurd h2 (by simp)
    | some u0 =>
      rw [hm] at h
      dsimp only at h
      obtain ⟨hu0m, hu0min⟩ := ih u0 hm
      by_cases hcmp : feePriority u0 < feePriority a
      · rw [if_pos hcmp] at h
        injection h with h'
        subst h'
        refine ⟨List.mem_cons_of_mem a hu0m, ?_⟩
        intro u hu
        rcases List.mem_cons.mp hu with rfl | h2
        · exact Nat.le_of_lt hcmp
        · exact hu0min u h2
      · rw [if_neg hcmp] at h
        injection h with h'
        subst h'
        refine ⟨List.mem_cons_self .., ?_⟩
        intro u hu
        rcases List.mem_cons.mp hu with rfl | h2
        · exact Nat.le_refl _
        · exact Nat.le_trans (Nat.le_of_not_lt hcmp) (hu0min u h2)

theorem find?_key_nodup {ls : List (Nat × TxList)} (hkeys : (ls.map Prod.fst).Nodup)
    {e : Nat × TxList} (he : e ∈ ls) : ls.find? (fun x => x.1 = e.1) = some e := by
  induction ls with
  | nil => cases he
  | cons a rest ih =>
    have hkeys' : (a.1 :: rest.map Prod.fst).Nodup := hkeys
    have hkc := List.nodup_cons.mp hkeys'
    rcases List.mem_cons.mp he with rfl | her
    · exact List.find?_cons_of_pos rest (by simp)
    · have hka : (a.1 = e.1) = False := by
        simp only [eq_iff_iff, iff_false]
        intro hEq
        exact hkc.1 (hEq ▸ List.mem_map.mpr ⟨e, her, rfl⟩)
      rw [List.find?_cons_of_neg rest (by simp [hka])]
      exact ih hkc.2 her

theorem key_unique {ls : List (Nat × TxList)} (h : (ls.map Prod.fst).Nodup)
    {e e' : Nat × TxList} (he : e ∈ ls) (he' : e' ∈ ls) (hk : e.1 = e'.1) : e = e' := by
  have h1 := find?_key_nodup h he
  have h2 := find?_key_nodup h he'
  rw [hk] at h1
  rw [h1] at h2
  injection h2

end TxPool

namespace TxPool

/-! ### C5 — processable eviction -/

/-- Claim C5: on a pool whose sender lists are well formed, all non-empty
and with non-empty processable partitions (and whose indexes are mutually
consistent), `_evict_processable` selects, among the per-sender processable
transactions of highest nonce (the frontiers), one with minimum
`fee_priority`, removes exactly that transaction from the indexes (no other
transaction is removed and no other nonce is demoted), and returns true; in
general a false return means no eviction occurred and the pool is
untouched. -/
theorem C5_evict_processable :
    ∀ p : Pool,
      p.lists ≠ [] →
      (∀ e ∈ p.lists, wfList e.2) →
      (∀ e ∈ p.lists, getProcessable e.2 ≠ []) →
      (∀ e ∈ p.lists, ∀ u ∈ e.2.byNonce, u.senderAddress = e.1) →
      (p.lists.map Prod.fst).Nodup →
      (∀ e ∈ p.lists, ∀ u ∈ e.2.byNonce,
        p.allTransactions.find? (fun x => x.id = u.id) = some u) →
      (∀ q : Pool, (evictProcessable q).2.1 = false → evictProcessable q = (q, false, [])) ∧
      ∃ t, minByFee (frontiers p) = some t ∧
        t ∈ frontiers p ∧
        (∀ u ∈ frontiers p, feePriority t ≤ feePriority u) ∧
        (∃ e ∈ p.lists, (getProcessable e.2).getLast? = some t ∧
          ∀ u ∈ getProcessable e.2, u.nonce ≤ t.nonce) ∧
        evictProcessable p =
          (removeInternal p t.id, true, [PoolEvent.removed t.id EvReason.evPoolFull]) ∧
        (evictProcessable p).2.1 = true ∧
        (∀ x ∈ p.allTransactions, x.id ≠ t.id →
          x ∈ (evictProcessable p).1.allTransactions) ∧
        (∀ x ∈ (evictProcessable p).1.allTransactions, x.id ≠ t.id) ∧
        (∀ e ∈ p.lists, ∀ n ∈ e.2.processableNonces,
          e.1 ≠ t.senderAddress ∨ n ≠ t.nonce →
          ∃ L', (e.1, L') ∈ (evictProcessable p).1.lists ∧ n ∈ L'.processableNonces) := by
  intro p hne hwf hproc haddr hkeys hlook
  constructor
  · intro q hq
    rcases evictProcessable_cases q with hE | ⟨t, _, hE⟩
    · exact hE
    · rw [hE] at hq; exact absurd hq (by simp)
  · obtain ⟨e0, he0⟩ : ∃ e0, e0 ∈ p.lists := by
      cases hl : p.lists with
      | nil => exact absurd hl hne
      | cons a rest => exact ⟨a, List.mem_cons_self ..⟩
    obtain ⟨m0, hm0⟩ : ∃ m0, (getProcessable e0.2).getLast? = some m0 := by
      cases hgl : (getProcessable e0.2).getLast? with
      | none => exact absurd (List.getLast?_eq_none_iff.mp hgl) (hproc e0 he0)
      | some m => exact ⟨m, rfl⟩
    have hfr0 : m0 ∈ frontiers p := List.mem_filterMap.mpr ⟨e0, he0, hm0⟩
    obtain ⟨t, hm⟩ : ∃ t, minByFee (frontiers p) = some t := by
      cases hmm : minByFee (frontiers p) with
      | none =>
        exfalso
        rw [minByFee_none hmm] at hfr0
        exact absurd hfr0 (by simp)
      | some t => exact ⟨t, rfl⟩
    obtain ⟨htm, htmin⟩ := minByFee_spec _ _ hm
    rcases List.mem_filterMap.mp htm with ⟨e, he, hgl⟩
    have hpw : (getProcessable e.2).Pairwise (fun s t => s.nonce < t.nonce) := by
      obtain ⟨hasc, hk⟩ := hwf e he
      rw [getProcessable_take hasc hk]
      exact (ascNonce_pairwise hasc).sublist (List.take_sublist _ _)
    have hhn : ∀ u ∈ getProcessable e.2, u.nonce ≤ t.nonce := last_nonce_max hpw hgl
    have htP : t ∈ getProcessable e.2 := mem_of_getLastEq hgl
    have htB : t ∈ e.2.byNonce := getProcessable_subset htP
    have hfound : getTx p t.id = some t := hlook e he t htB
    have hsend : t.senderAddress = e.1 := haddr e he t htB
    have hlkup : lookupList p t.senderAddress = some e.2 := by
      unfold lookupList
      rw [hsend, find?_key_nodup hkeys he]
      rfl
    have hEv : evictProcessable p =
        (removeInternal p t.id, true, [PoolEvent.removed t.id EvReason.evPoolFull]) := by
      unfold evictProcessable
      rw [hm]
    have hRI : removeInternal p t.id =
        { p with
          allTransactions := p.allTransactions.filter (fun x => x.id ≠ t.id),
          lists := updateLists p.lists e.1 (listRemoveNonce e.2 t.nonce),
          feePriorityQueue := p.feePriorityQueue.filter (fun x => x.2 ≠ t.id) } := by
      unfold removeInternal
      rw [hfound]
      dsimp only
      rw [hlkup]
      dsimp only
      rw [hsend]
    refine ⟨t, hm, htm, htmin, ⟨e, he, hgl, hhn⟩, hEv, by rw [hEv], ?_, ?_, ?_⟩
    · intro x hx hxid
      rw [hEv]
      dsimp only
      rw [hRI]
      exact List.mem_filter.mpr ⟨hx, by simpa using hxid⟩
    · intro x hx
      rw [hEv] at hx
      dsimp only at hx
      rw [hRI] at hx
      have := (List.mem_filter.mp hx).2
      simpa using this
    · intro e' he' n hn hcond
      rw [hEv]
      dsimp only
      rw [hRI]
      dsimp only
      by_cases hkey : e'.1 = e.1
      · obtain rfl : e' = e := key_unique hkeys he' he hkey
        have hne' : n ≠ t.nonce := by
          rcases hcond with h1 | h1
          · exact absurd hsend.symm h1
          · exact h1
        by_cases hLRe : (listRemoveNonce e'.2 t.nonce).byNonce = []
        · exfalso
          obtain ⟨hasc, hk⟩ := hwf e' he'
          have hnmem : n ∈ (e'.2.byNonce.map Tx.nonce).take e'.2.processableNonces.length :=
            hk ▸ hn
          have hnmap : n ∈ e'.2.byNonce.map Tx.nonce := List.take_subset _ _ hnmem
          rcases List.mem_map.mp hnmap with ⟨u, hu, hun⟩
          by_cases hud : u.nonce = t.nonce
          · exact hne' (hun ▸ hud)
          · have hmem' : u ∈ (listRemoveNonce e'.2 t.nonce).byNonce :=
              List.mem_filter.mpr ⟨hu, by simpa using hud⟩
            rw [hLRe] at hmem'
            exact absurd hmem' (by simp)
        · unfold updateLists
          rw [if_neg (by simpa using hLRe)]
          refine ⟨listRemoveNonce e'.2 t.nonce, ?_, ?_⟩
          · exact List.mem_map.mpr ⟨e', he', by rw [if_pos rfl]⟩
          · exact List.mem_filter.mpr ⟨hn, by simpa using hne'⟩
      · unfold updateLists
        by_cases hLRe : (listRemoveNonce e.2 t.nonce).byNonce = []
        · rw [if_pos (by simpa using hLRe)]
          exact ⟨e'.2, List.mem_filter.mpr ⟨he', by simpa using hkey⟩, hn⟩
        · rw [if_neg (by simpa using hLRe)]
          refine ⟨e'.2, ?_, hn⟩
          exact List.mem_map.mpr ⟨e', he', by rw [if_neg hkey]⟩

end TxPool

namespace TxPool

/-- Modelled from the spec: sender 7's nonce-1 transaction, priority 99. -/
def txS1a : Tx := ⟨1, 7, 1, 1000, 10, 10, 0⟩

/-- Modelled from the spec: sender 7's nonce-2 transaction, priority 199. -/
def txS1b : Tx := ⟨2, 7, 2, 2000, 10, 10, 0⟩

/-- Modelled from the spec: sender 8's nonce-1 transaction, priority 99. -/
def txS2a : Tx := ⟨11, 8, 1, 1000, 10, 10, 0⟩

/-- Modelled from the spec: sender 8's nonce-2 transaction, priority 99. -/
def txS2b : Tx := ⟨12, 8, 2, 1000, 10, 10, 0⟩

/-- Modelled from the spec: a pool with two senders whose transactions are
all processable, mirroring the repository test at
transaction_pool.spec.ts:749. -/
def pEv : Pool := ⟨[txS1a, txS1b, txS2a, txS2b],
  [(7, ⟨[txS1a, txS1b], [1, 2]⟩), (8, ⟨[txS2a, txS2b], [1, 2]⟩)],
  [(99, 1), (99, 11), (99, 12), (199, 2)], 4, 64, 0, 10⟩

/-- Witness for C5 at a concrete input: on `pEv` the eviction selects the
minimum-priority frontier (sender 8's highest-nonce transaction, id 12). -/
theorem C5_evict_processable_witness :
    ∃ t, minByFee (frontiers pEv) = some t ∧
      t ∈ frontiers pEv ∧
      (∀ u ∈ frontiers pEv, feePriority t ≤ feePriority u) ∧
      (∃ e ∈ pEv.lists, (getProcessable e.2).getLast? = some t ∧
        ∀ u ∈ getProcessable e.2, u.nonce ≤ t.nonce) ∧
      evictProcessable pEv =
        (removeInternal pEv t.id, true, [PoolEvent.removed t.id EvReason.evPoolFull]) ∧
      (evictProcessable pEv).2.1 = true ∧
      (∀ x ∈ pEv.allTransactions, x.id ≠ t.id →
        x ∈ (evictProcessable pEv).1.allTransactions) ∧
      (∀ x ∈ (evictProcessable pEv).1.allTransactions, x.id ≠ t.id) ∧
      (∀ e ∈ pEv.lists, ∀ n ∈ e.2.processableNonces,
        e.1 ≠ t.senderAddress ∨ n ≠ t.nonce →
        ∃ L', (e.1, L') ∈ (evictProcessable pEv).1.lists ∧ n ∈ L'.processableNonces) :=
  (C5_evict_processable pEv (by decide)
    (by
      intro e he
      simp [pEv] at he
      rcases he with rfl | rfl
      · exact ⟨rfl, rfl⟩
      · exact ⟨rfl, rfl⟩)
    (by decide) (by decide) (by decide)
    (by
      intro e he
      simp [pEv] at he
      rcases he with rfl | rfl
      · decide
      · decide)).2

end TxPool

namespace TxPool

/-! ### Key membership of `get_processable_transactions`

The deep-copy half of the corresponding specification sentence concerns
heap aliasing and caller-side mutation, which a pure functional embedding
cannot express; the key-membership half is proved here. -/

theorem getProcessableTransactions_key_iff (p : Pool) (a : Nat) :
    (∃ l, (a, l) ∈ getProcessableTransactions p) ↔
    (∃ L, (a, L) ∈ p.lists ∧ getProcessable L ≠ []) := by
  unfold getProcessableTransactions
  constructor
  · rintro ⟨l, hl⟩
    rcases List.mem_filterMap.mp hl with ⟨e, he, hfe⟩
    cases hps : getProcessable e.2 with
    | nil => rw [hps] at hfe; simp at hfe
    | cons x xs =>
      rw [hps] at hfe
      injection hfe with h1
      obtain ⟨h2, _⟩ := Prod.mk.injEq .. ▸ h1
      refine ⟨e.2, ?_, by rw [hps]; simp⟩
      rw [← h2]
      exact he
  · rintro ⟨L, hL, hne⟩
    cases hps : getProcessable L with
    | nil => exact absurd hps hne
    | cons x xs =>
      refine ⟨x :: xs, List.mem_filterMap.mpr ⟨(a, L), hL, ?_⟩⟩
      show (match getProcessable L with
        | [] => none
        | ps => some (a, ps)) = some (a, x :: xs)
      rw [hps]

end TxPool
